import Mathlib

/-!
Verification of the document-merge and version-comparison logic of
operand-deployment-lifecycle-manager (`controllers/util/merge.go` and
`controllers/util/util.go`).

The Go code manipulates values of type `interface{}` decoded from JSON by
`encoding/json`.  We embed such values as the inductive type `Json` below:
a decoded `map[string]interface{}` becomes an association list `JsonObj`.
A JSON `null` decodes in Go to the nil interface, which is also what a map
lookup returns for an absent key; the embedding mirrors this by collapsing
"absent" and "null" through `toGo`.  Numbers are embedded as `Int` (the
merge code only ever compares them for equality, so the `float64`
representation Go uses is immaterial here), and `reflect.DeepEqual` on
decoded values is structural equality.
-/

mutual
inductive Json where
  | null : Json
  | bool : Bool → Json
  | num : Int → Json
  | str : String → Json
  | arr : JsonList → Json
  | obj : JsonObj → Json
deriving DecidableEq
inductive JsonList where
  | nil : JsonList
  | cons : Json → JsonList → JsonList
deriving DecidableEq
inductive JsonObj where
  | nil : JsonObj
  | cons : String → Json → JsonObj → JsonObj
deriving DecidableEq
end

/-- Go map indexing `m[k]` on a decoded map: the binding of `k`, if any. -/
def lookupObj : JsonObj → String → Option Json
  | JsonObj.nil, _ => none
  | JsonObj.cons k0 v0 rest, k => if k0 = k then some v0 else lookupObj rest k

/-- Go map assignment `m[k] = v`: replace the binding of `k`, or add it. -/
def insertObj : JsonObj → String → Json → JsonObj
  | JsonObj.nil, k, v => JsonObj.cons k v JsonObj.nil
  | JsonObj.cons k0 v0 rest, k, v =>
      if k0 = k then JsonObj.cons k v rest else JsonObj.cons k0 v0 (insertObj rest k v)

/-- The `interface{}` value a Go map lookup yields: the nil interface (JSON
null) when the key is absent, matching `changedCRDecoded[key]`. -/
def toGo : Option Json → Json
  | some v => v
  | none => Json.null

def keysOf : JsonObj → List String
  | JsonObj.nil => []
  | JsonObj.cons k _ rest => k :: keysOf rest

mutual
/-- `checkKeyBeforeMerging` from `controllers/util/merge.go`.

`defaultMap`/`changedMap` are the values at `key` in the default and changed
documents (Go passes them as `interface{}`; a `Json.null` is Go's nil
interface).  `finalMap` is the map Go mutates in place; the returned map is
its contents after the call.  `none` models the panic of the type assertion
`finalMap[key].(map[string]interface{})` on a non-map value.  Inside the
nested loop Go reads `changedMapRef[newKey]` and writes through
`finalMap[key]`, which are the same (mutating) object on every call reachable
from `MergeCR`; the embedding threads that object's evolving contents through
`mergeInto`. -/
def checkKeyBeforeMerging (key : String) (defaultMap changedMap : Json)
    (finalMap : JsonObj) : Option JsonObj :=
  if defaultMap = changedMap then some finalMap
  else
    match defaultMap with
    | Json.obj defaultMapRef =>
        if changedMap = Json.null then some (insertObj finalMap key defaultMap)
        else
          match changedMap with
          | Json.obj _ =>
              match toGo (lookupObj finalMap key) with
              | Json.obj fm =>
                  match mergeInto defaultMapRef fm with
                  | some fm2 => some (insertObj finalMap key (Json.obj fm2))
                  | none => none
              | _ => none
          | _ => some finalMap
    | _ =>
        if changedMap = Json.null then some (insertObj finalMap key defaultMap)
        else some finalMap

/-- The reconciliation loop `for key := range defaultCRDecoded {
checkKeyBeforeMerging(key, defaultCRDecoded[key], changedCRDecoded[key],
changedCRDecoded) }` of `MergeCR`, and likewise the nested loop inside
`checkKeyBeforeMerging`.  The changed value at each key is read from the
evolving map, exactly as Go reads it from the object being mutated.  Go map
iteration yields each key once in unspecified order; a decoded map binds each
key once, so walking the binding list and looking each key up coincide. -/
def mergeInto : JsonObj → JsonObj → Option JsonObj
  | JsonObj.nil, finalMap => some finalMap
  | JsonObj.cons key dv rest, finalMap =>
      match checkKeyBeforeMerging key dv (toGo (lookupObj finalMap key)) finalMap with
      | some finalMap2 => mergeInto rest finalMap2
      | none => none
end

/-- `MergeCR` from `controllers/util/merge.go`.  The two arguments are raw
byte buffers; `dec` stands for the external `json.Unmarshal` collaborator
(which fills a fresh `map[string]interface{}`; on a decode error Go logs the
error and keeps whatever the map holds, so `dec` is total).  The result is
the decoded changed document after the reconciliation loop ran over it. -/
def MergeCR (dec : List Nat → JsonObj) (defaultCR changedCR : List Nat) :
    Option JsonObj :=
  if defaultCR.length = 0 ∧ changedCR.length = 0 then some JsonObj.nil
  else if defaultCR.length ≠ 0 ∧ changedCR.length = 0 then some (dec defaultCR)
  else if defaultCR.length = 0 ∧ changedCR.length ≠ 0 then some (dec changedCR)
  else mergeInto (dec defaultCR) (dec changedCR)

mutual
/-- Well-formedness of a decoded value: every mapping inside it binds each
key at most once.  `json.Unmarshal` only produces such values; the merge
never descends into arrays, so their elements need no condition. -/
def Json.wf : Json → Bool
  | Json.obj l => JsonObj.wfKeys l
  | _ => true

/-- Well-formedness of a decoded mapping: keys pairwise distinct and every
value well-formed. -/
def JsonObj.wfKeys : JsonObj → Bool
  | JsonObj.nil => true
  | JsonObj.cons k v rest =>
      !((keysOf rest).contains k) && Json.wf v && JsonObj.wfKeys rest
end

/-! ### `CompareChannelVersion` (`controllers/util/util.go`) -/

/-- The "after" part of Go `strings.Cut(s, "v")` for the one-character
separator `"v"`: the suffix after the first `v`, or `none` when no `v`
occurs (Go then returns `after = ""` with `found = false`). -/
def stringsCutAfter : List Char → Char → Option (List Char)
  | [], _ => none
  | c :: rest, sep => if c = sep then some rest else stringsCutAfter rest sep

/-- Go `strings.Split(s, ".")` on a single-dot separator; `Split("", ".")`
is `[""]`. -/
def stringsSplitDot : List Char → List (List Char)
  | [] => [[]]
  | c :: rest =>
      let r := stringsSplitDot rest
      if c = '.' then [] :: r
      else
        match r with
        | g :: gs => (c :: g) :: gs
        | [] => [[c]]

/-- The digit run of Go `strconv.Atoi`: `none` at the first non-digit. -/
def atoiDigits : List Char → Nat → Option Nat
  | [], acc => some acc
  | c :: rest, acc =>
      if '0' ≤ c ∧ c ≤ '9' then atoiDigits rest (10 * acc + (c.toNat - '0'.toNat))
      else none

/-- Go `strconv.Atoi`: an optional sign followed by one or more digits; any
other shape is an error (`none`).  Go additionally errors on 64-bit
overflow, which no claim exercises, so the value is unbounded here. -/
def strconvAtoi : List Char → Option Int
  | [] => none
  | '+' :: rest => if rest = [] then none else (atoiDigits rest 0).map Int.ofNat
  | '-' :: rest => if rest = [] then none else (atoiDigits rest 0).map (fun n => -(n : Int))
  | s => (atoiDigits s 0).map Int.ofNat

/-- The comparison loop of `CompareChannelVersion`: `for index := range
v1Slice`, with `v2Slice[index]` read only after `v1Slice[index]` parsed
successfully.  `Except.error c` is the `strconv.Atoi` error on component
`c`; `none` models the index-out-of-range panic on `v2Slice[index]`. -/
def cmpLoop : List (List Char) → List (List Char) → Option (Except (List Char) Bool)
  | [], _ => some (Except.ok false)
  | c1 :: rest1, v2Slice =>
      match strconvAtoi c1 with
      | none => some (Except.error c1)
      | some n1 =>
          match v2Slice with
          | [] => none
          | c2 :: rest2 =>
              match strconvAtoi c2 with
              | none => some (Except.error c2)
              | some n2 =>
                  if n1 > n2 then some (Except.ok true)
                  else if n1 = n2 then cmpLoop rest1 rest2
                  else some (Except.ok false)

/-- `v1Slice` as computed by `CompareChannelVersion`.  Note that the
source's second `if !isExist { v1Cut = "0.0" }` (in the `v2` block) writes
to `v1Cut`, so `v1`'s normalized components also depend on `v2`. -/
def v1SliceOf (v1 v2 : String) : List (List Char) :=
  let v1Cut := match stringsCutAfter v1.toList 'v' with
    | some a => a
    | none => "0.0".toList
  let v1Cut2 := if (stringsSplitDot v1Cut).length = 1 then v1Cut ++ ['.', '0'] else v1Cut
  let v1Cut3 := match stringsCutAfter v2.toList 'v' with
    | some _ => v1Cut2
    | none => "0.0".toList
  stringsSplitDot v1Cut3

/-- `v2Slice` as computed by `CompareChannelVersion`: `strings.Cut` leaves
`v2Cut = ""` when `v2` contains no `v` (the `"0.0"` default in that branch
is written to `v1Cut` instead). -/
def v2SliceOf (v2 : String) : List (List Char) :=
  let v2Cut := match stringsCutAfter v2.toList 'v' with
    | some a => a
    | none => []
  let v2Cut2 := if (stringsSplitDot v2Cut).length = 1 then v2Cut ++ ['.', '0'] else v2Cut
  stringsSplitDot v2Cut2

/-- `CompareChannelVersion` from `controllers/util/util.go`. -/
def CompareChannelVersion (v1 v2 : String) : Option (Except (List Char) Bool) :=
  cmpLoop (v1SliceOf v1 v2) (v2SliceOf v2)

/-! ### Auxiliary notions used by the statements -/

/-- The value reached from a decoded mapping by following a non-empty
sequence of keys through nested mappings. -/
def getPath : JsonObj → List String → Option Json
  | _, [] => none
  | m, [k] => lookupObj m k
  | m, k :: ks =>
      match lookupObj m k with
      | some (Json.obj l) => getPath l ks
      | _ => none

/-- "Key `k` at the end of path `p` is not a default key": following `p`
through the default document either leaves its mappings (so the merge never
reconciles below that point key-by-key) or reaches a mapping that does not
bind `k`. -/
def lacksAt : JsonObj → List String → String → Prop
  | d, [], k => lookupObj d k = none
  | d, k1 :: p, k =>
      match lookupObj d k1 with
      | some (Json.obj dl) => lacksAt dl p k
      | _ => True

/-- Every binding of `ents` agrees with what `full` holds at that key (as Go
sees it through a map lookup). -/
def entriesMatch : JsonObj → JsonObj → Prop
  | JsonObj.nil, _ => True
  | JsonObj.cons k dv rest, full =>
      toGo (lookupObj full k) = dv ∧ entriesMatch rest full

/-- Replaying each binding of `ents` against the map `m` leaves `m`
unchanged. -/
def stepsNoop : JsonObj → JsonObj → Prop
  | JsonObj.nil, _ => True
  | JsonObj.cons k dv rest, m =>
      checkKeyBeforeMerging k dv (toGo (lookupObj m k)) m = some m ∧ stepsNoop rest m

/-! ### Basic lemmas about the map operations -/

theorem lookupObj_insertObj_self : ∀ (m : JsonObj) (k : String) (v : Json),
    lookupObj (insertObj m k v) k = some v
  | JsonObj.nil, k, v => by simp [insertObj, lookupObj]
  | JsonObj.cons k0 v0 rest, k, v => by
      by_cases h : k0 = k
      · simp [insertObj, h, lookupObj]
      · simp [insertObj, h, lookupObj, lookupObj_insertObj_self rest k v]

theorem lookupObj_insertObj_ne : ∀ (m : JsonObj) (k k1 : String) (v : Json),
    k1 ≠ k → lookupObj (insertObj m k v) k1 = lookupObj m k1
  | JsonObj.nil, k, k1, v, h => by
      simp [insertObj, lookupObj, if_neg (Ne.symm h)]
  | JsonObj.cons k0 v0 rest, k, k1, v, h => by
      by_cases h0 : k0 = k
      · subst h0
        simp [insertObj, lookupObj, if_neg (Ne.symm h)]
      · simp only [insertObj, if_neg h0]
        by_cases h1 : k0 = k1 <;>
          simp [lookupObj, h1, lookupObj_insertObj_ne rest k k1 v h]

theorem insertObj_lookup_self : ∀ (m : JsonObj) (k : String) (v : Json),
    lookupObj m k = some v → insertObj m k v = m
  | JsonObj.nil, k, v, h => by simp [lookupObj] at h
  | JsonObj.cons k0 v0 rest, k, v, h => by
      by_cases h0 : k0 = k
      · subst h0
        simp [lookupObj] at h
        simp [insertObj, h]
      · simp [lookupObj, h0] at h
        simp [insertObj, h0, insertObj_lookup_self rest k v h]

theorem lookupObj_eq_none_iff : ∀ (m : JsonObj) (k : String),
    lookupObj m k = none ↔ k ∉ keysOf m
  | JsonObj.nil, k => by simp [lookupObj, keysOf]
  | JsonObj.cons k0 v0 rest, k => by
      by_cases h0 : k0 = k
      · subst h0
        simp [lookupObj, keysOf]
      · simp [lookupObj, keysOf, h0, lookupObj_eq_none_iff rest k, Ne.symm h0]

theorem lookupObj_isSome_of_mem (m : JsonObj) (k : String) (h : k ∈ keysOf m) :
    (lookupObj m k).isSome := by
  rcases h1 : lookupObj m k with _ | v
  · exact absurd ((lookupObj_eq_none_iff m k).mp h1) (by simp [h])
  · rfl

/-! ### Unfolding lemmas for the merge functions -/

theorem mergeInto_nil (final : JsonObj) : mergeInto JsonObj.nil final = some final := rfl

theorem mergeInto_cons (key : String) (dv : Json) (rest final : JsonObj) :
    mergeInto (JsonObj.cons key dv rest) final =
      match checkKeyBeforeMerging key dv (toGo (lookupObj final key)) final with
      | some final2 => mergeInto rest final2
      | none => none := rfl

theorem ckbm_self (key : String) (dv : Json) (m : JsonObj) :
    checkKeyBeforeMerging key dv dv m = some m := by
  unfold checkKeyBeforeMerging
  simp

theorem ckbm_fill (key : String) (dv : Json) (m : JsonObj)
    (hdv : dv ≠ Json.null) :
    checkKeyBeforeMerging key dv Json.null m = some (insertObj m key dv) := by
  cases dv with
  | null => exact absurd rfl hdv
  | obj dm => unfold checkKeyBeforeMerging; simp
  | bool b => unfold checkKeyBeforeMerging; simp
  | num n => unfold checkKeyBeforeMerging; simp
  | str s => unfold checkKeyBeforeMerging; simp
  | arr l => unfold checkKeyBeforeMerging; simp

theorem ckbm_noop_default (key : String) (dv cv : Json) (m : JsonObj)
    (hdv : ∀ l, dv ≠ Json.obj l) (hcv : cv ≠ Json.null) :
    checkKeyBeforeMerging key dv cv m = some m := by
  by_cases heq : dv = cv
  · rw [heq, ckbm_self]
  · cases dv with
    | obj dm => exact absurd rfl (hdv dm)
    | null => unfold checkKeyBeforeMerging; rw [if_neg heq, if_neg hcv]
    | bool b => unfold checkKeyBeforeMerging; rw [if_neg heq, if_neg hcv]
    | num n => unfold checkKeyBeforeMerging; rw [if_neg heq, if_neg hcv]
    | str s => unfold checkKeyBeforeMerging; rw [if_neg heq, if_neg hcv]
    | arr l => unfold checkKeyBeforeMerging; rw [if_neg heq, if_neg hcv]

theorem ckbm_noop_mismatch (key : String) (dm : JsonObj) (cv : Json)
    (m : JsonObj) (hcv : cv ≠ Json.null) (hobj : ∀ l, cv ≠ Json.obj l) :
    checkKeyBeforeMerging key (Json.obj dm) cv m = some m := by
  by_cases heq : Json.obj dm = cv
  · rw [heq, ckbm_self]
  · unfold checkKeyBeforeMerging
    rw [if_neg heq, if_neg hcv]
    cases cv with
    | null => exact absurd rfl hcv
    | obj l => exact absurd rfl (hobj l)
    | bool b => rfl
    | num n => rfl
    | str s => rfl
    | arr l => rfl

theorem ckbm_obj_obj (key : String) (dm cm fm fm2 m : JsonObj)
    (hne : Json.obj dm ≠ Json.obj cm)
    (hlk : lookupObj m key = some (Json.obj fm))
    (hmi : mergeInto dm fm = some fm2) :
    checkKeyBeforeMerging key (Json.obj dm) (Json.obj cm) m =
      some (insertObj m key (Json.obj fm2)) := by
  unfold checkKeyBeforeMerging
  rw [if_neg hne, if_neg (by simp)]
  simp [hlk, toGo, hmi]

/-- Exhaustive description of the outcomes of a successful
`checkKeyBeforeMerging` call. -/
theorem ckbm_cases {key : String} {dv cv : Json} {m m1 : JsonObj}
    (h : checkKeyBeforeMerging key dv cv m = some m1) :
    (dv = cv ∧ m1 = m)
    ∨ (dv ≠ cv ∧ cv = Json.null ∧ m1 = insertObj m key dv)
    ∨ (∃ dm cm fm fm2, dv = Json.obj dm ∧ cv = Json.obj cm ∧ dv ≠ cv ∧
        lookupObj m key = some (Json.obj fm) ∧ mergeInto dm fm = some fm2 ∧
        m1 = insertObj m key (Json.obj fm2))
    ∨ (dv ≠ cv ∧ cv ≠ Json.null ∧ (∀ l, dv = Json.obj l → ∀ l2, cv ≠ Json.obj l2)
        ∧ m1 = m) := by
  by_cases heq : dv = cv
  · subst heq
    rw [ckbm_self] at h
    exact Or.inl ⟨rfl, (Option.some_inj.mp h).symm⟩
  · by_cases hnull : cv = Json.null
    · subst hnull
      by_cases hdv : dv = Json.null
      · exact absurd hdv heq
      · rw [ckbm_fill key dv m hdv] at h
        exact Or.inr (Or.inl ⟨heq, rfl, (Option.some_inj.mp h).symm⟩)
    · cases dv with
      | obj dm =>
          cases cv with
          | null => exact absurd rfl hnull
          | obj cm =>
              unfold checkKeyBeforeMerging at h
              rcases hlk : lookupObj m key with _ | w
              · simp [heq, hnull, hlk, toGo] at h
              · cases w with
                | obj fm =>
                    rcases hmi : mergeInto dm fm with _ | fm2
                    · simp [heq, hnull, hlk, toGo, hmi] at h
                    · simp [heq, hnull, hlk, toGo, hmi] at h
                      exact Or.inr (Or.inr (Or.inl ⟨dm, cm, fm, fm2, rfl, rfl,
                        heq, rfl, hmi, h.symm⟩))
                | null => simp [heq, hnull, hlk, toGo] at h
                | bool b => simp [heq, hnull, hlk, toGo] at h
                | num n => simp [heq, hnull, hlk, toGo] at h
                | str s => simp [heq, hnull, hlk, toGo] at h
                | arr l => simp [heq, hnull, hlk, toGo] at h
          | bool b =>
              rw [ckbm_noop_mismatch key dm _ m hnull (by simp)] at h
              exact Or.inr (Or.inr (Or.inr ⟨heq, hnull, by simp, (Option.some_inj.mp h).symm⟩))
          | num n =>
              rw [ckbm_noop_mismatch key dm _ m hnull (by simp)] at h
              exact Or.inr (Or.inr (Or.inr ⟨heq, hnull, by simp, (Option.some_inj.mp h).symm⟩))
          | str s =>
              rw [ckbm_noop_mismatch key dm _ m hnull (by simp)] at h
              exact Or.inr (Or.inr (Or.inr ⟨heq, hnull, by simp, (Option.some_inj.mp h).symm⟩))
          | arr l =>
              rw [ckbm_noop_mismatch key dm _ m hnull (by simp)] at h
              exact Or.inr (Or.inr (Or.inr ⟨heq, hnull, by simp, (Option.some_inj.mp h).symm⟩))
      | null =>
          rw [ckbm_noop_default key _ cv m (by simp) hnull] at h
          exact Or.inr (Or.inr (Or.inr ⟨heq, hnull, by simp, (Option.some_inj.mp h).symm⟩))
      | bool b =>
          rw [ckbm_noop_default key _ cv m (by simp) hnull] at h
          exact Or.inr (Or.inr (Or.inr ⟨heq, hnull, by simp, (Option.some_inj.mp h).symm⟩))
      | num n =>
          rw [ckbm_noop_default key _ cv m (by simp) hnull] at h
          exact Or.inr (Or.inr (Or.inr ⟨heq, hnull, by simp, (Option.some_inj.mp h).symm⟩))
      | str s =>
          rw [ckbm_noop_default key _ cv m (by simp) hnull] at h
          exact Or.inr (Or.inr (Or.inr ⟨heq, hnull, by simp, (Option.some_inj.mp h).symm⟩))
      | arr l =>
          rw [ckbm_noop_default key _ cv m (by simp) hnull] at h
          exact Or.inr (Or.inr (Or.inr ⟨heq, hnull, by simp, (Option.some_inj.mp h).symm⟩))

theorem mergeInto_cons_inv {key : String} {dv : Json} {rest final m1 : JsonObj}
    (h : mergeInto (JsonObj.cons key dv rest) final = some m1) :
    ∃ final2, checkKeyBeforeMerging key dv (toGo (lookupObj final key)) final = some final2 ∧
      mergeInto rest final2 = some m1 := by
  rw [mergeInto_cons] at h
  rcases h2 : checkKeyBeforeMerging key dv (toGo (lookupObj final key)) final with _ | f2
  · rw [h2] at h; exact absurd h (by simp)
  · rw [h2] at h; exact ⟨f2, rfl, h⟩

/-- A `checkKeyBeforeMerging` call only ever writes at its own key. -/
theorem ckbm_frame {key : String} {dv cv : Json} {m m1 : JsonObj}
    (h : checkKeyBeforeMerging key dv cv m = some m1) (k : String)
    (hk : k ≠ key) : lookupObj m1 k = lookupObj m k := by
  rcases ckbm_cases h with ⟨_, rfl⟩ | ⟨_, _, rfl⟩ |
    ⟨dm, cm, fm, fm2, _, _, _, _, _, rfl⟩ | ⟨_, _, _, rfl⟩
  · rfl
  · exact lookupObj_insertObj_ne m key k dv hk
  · exact lookupObj_insertObj_ne m key k _ hk
  · rfl

/-- A `checkKeyBeforeMerging` call never removes a key from the map. -/
theorem ckbm_mono {key : String} {dv cv : Json} {m m1 : JsonObj}
    (h : checkKeyBeforeMerging key dv cv m = some m1) (k : String)
    (hs : (lookupObj m k).isSome) : (lookupObj m1 k).isSome := by
  by_cases hk : k = key
  · subst hk
    rcases ckbm_cases h with ⟨_, rfl⟩ | ⟨_, _, rfl⟩ |
      ⟨dm, cm, fm, fm2, _, _, _, _, _, rfl⟩ | ⟨_, _, _, rfl⟩
    · exact hs
    · rw [lookupObj_insertObj_self]; rfl
    · rw [lookupObj_insertObj_self]; rfl
    · exact hs
  · rw [ckbm_frame h k hk]; exact hs

/-- The reconciliation loop only ever writes at keys of the default map. -/
theorem mergeInto_frame : ∀ (ents s m1 : JsonObj), mergeInto ents s = some m1 →
    ∀ k, k ∉ keysOf ents → lookupObj m1 k = lookupObj s k
  | JsonObj.nil, s, m1, h, k, _ => by
      rw [mergeInto_nil] at h
      injection h with h
      subst h
      rfl
  | JsonObj.cons key dv rest, s, m1, h, k, hk => by
      rcases mergeInto_cons_inv h with ⟨s1, hstep, hrest⟩
      simp only [keysOf, List.mem_cons, not_or] at hk
      rw [mergeInto_frame rest s1 m1 hrest k hk.2, ckbm_frame hstep k hk.1]

/-- The reconciliation loop never removes a key from the changed map. -/
theorem mergeInto_mono : ∀ (ents s m1 : JsonObj), mergeInto ents s = some m1 →
    ∀ k, (lookupObj s k).isSome → (lookupObj m1 k).isSome
  | JsonObj.nil, s, m1, h, k, hs => by
      rw [mergeInto_nil] at h
      injection h with h
      subst h
      exact hs
  | JsonObj.cons key dv rest, s, m1, h, k, hs => by
      rcases mergeInto_cons_inv h with ⟨s1, hstep, hrest⟩
      exact mergeInto_mono rest s1 m1 hrest k (ckbm_mono hstep k hs)

/-- The reconciliation loop never panics: the type assertion
`finalMap[key].(map[string]interface{})` always sees a mapping, because the
changed value `cv` fed to `checkKeyBeforeMerging` is read from `finalMap` at
`key`, so whenever `cv` is a mapping so is `finalMap[key]`. -/
theorem mergeInto_isSome : ∀ (ents s : JsonObj), (mergeInto ents s).isSome
  | JsonObj.nil, s => by rw [mergeInto_nil]; rfl
  | JsonObj.cons key dv rest, s => by
      rw [mergeInto_cons]
      have hstep : ∃ s1, checkKeyBeforeMerging key dv (toGo (lookupObj s key)) s = some s1 := by
        by_cases heq : dv = toGo (lookupObj s key)
        · exact ⟨s, by rw [heq, ckbm_self]⟩
        · by_cases hnull : toGo (lookupObj s key) = Json.null
          · have hdv : dv ≠ Json.null := fun hh => heq (hh.trans hnull.symm)
            exact ⟨insertObj s key dv, by rw [hnull, ckbm_fill key dv s hdv]⟩
          · cases dv with
            | obj dm =>
                rcases hlk : lookupObj s key with _ | w
                · exact absurd (by rw [hlk]; rfl) hnull
                · cases w with
                  | obj cm =>
                      rcases Option.isSome_iff_exists.mp (mergeInto_isSome dm cm) with ⟨t, ht⟩
                      have hne : Json.obj dm ≠ Json.obj cm := by
                        rw [hlk] at heq; exact heq
                      exact ⟨insertObj s key (Json.obj t),
                        ckbm_obj_obj key dm cm cm t s hne hlk ht⟩
                  | null => exact absurd (by rw [hlk]; rfl) hnull
                  | bool b =>
                      exact ⟨s, ckbm_noop_mismatch key dm _ s
                        (by simp [toGo]) (by simp [toGo])⟩
                  | num n =>
                      exact ⟨s, ckbm_noop_mismatch key dm _ s
                        (by simp [toGo]) (by simp [toGo])⟩
                  | str s2 =>
                      exact ⟨s, ckbm_noop_mismatch key dm _ s
                        (by simp [toGo]) (by simp [toGo])⟩
                  | arr l =>
                      exact ⟨s, ckbm_noop_mismatch key dm _ s
                        (by simp [toGo]) (by simp [toGo])⟩
            | null => exact ⟨s, ckbm_noop_default key _ _ s (by simp) hnull⟩
            | bool b => exact ⟨s, ckbm_noop_default key _ _ s (by simp) hnull⟩
            | num n => exact ⟨s, ckbm_noop_default key _ _ s (by simp) hnull⟩
            | str s2 => exact ⟨s, ckbm_noop_default key _ _ s (by simp) hnull⟩
            | arr l => exact ⟨s, ckbm_noop_default key _ _ s (by simp) hnull⟩
      rcases hstep with ⟨s1, hs1⟩
      rw [hs1]
      exact mergeInto_isSome rest s1
termination_by ents s => sizeOf ents

/-! ### Replaying bindings that already match is a no-op -/

theorem mergeInto_of_stepsNoop : ∀ (ents m : JsonObj), stepsNoop ents m →
    mergeInto ents m = some m
  | JsonObj.nil, m, _ => rfl
  | JsonObj.cons key dv rest, m, h => by
      obtain ⟨h1, h2⟩ := h
      rw [mergeInto_cons, h1]
      exact mergeInto_of_stepsNoop rest m h2

theorem mergeInto_id_of_match : ∀ (ents m : JsonObj), entriesMatch ents m →
    mergeInto ents m = some m
  | JsonObj.nil, m, _ => rfl
  | JsonObj.cons key dv rest, m, h => by
      obtain ⟨h1, h2⟩ := h
      rw [mergeInto_cons, h1, ckbm_self]
      exact mergeInto_id_of_match rest m h2

theorem entriesMatch_of_lookup_sub : ∀ (ents full : JsonObj),
    (∀ k dv, lookupObj ents k = some dv → lookupObj full k = some dv) →
    (keysOf ents).Nodup → entriesMatch ents full
  | JsonObj.nil, full, _, _ => trivial
  | JsonObj.cons key dv rest, full, hsub, hnd => by
      simp only [keysOf, List.nodup_cons] at hnd
      have hk : lookupObj (JsonObj.cons key dv rest) key = some dv := by
        simp [lookupObj]
      refine ⟨by rw [hsub key dv hk]; rfl, entriesMatch_of_lookup_sub rest full ?_ hnd.2⟩
      intro k dv2 hkd
      apply hsub
      have hmem : k ∈ keysOf rest := by
        by_contra hmem
        rw [(lookupObj_eq_none_iff rest k).mpr hmem] at hkd
        cases hkd
      have hne : key ≠ k := fun he => hnd.1 (he ▸ hmem)
      rw [lookupObj, if_neg hne]
      exact hkd

/-- Merging a decoded map (no duplicate keys) into itself changes nothing. -/
theorem mergeInto_self (d : JsonObj) (hnd : (keysOf d).Nodup) :
    mergeInto d d = some d :=
  mergeInto_id_of_match d d (entriesMatch_of_lookup_sub d d (fun _ _ h => h) hnd)

/-! ### Path lemmas -/

theorem getPath_cons (m : JsonObj) (k1 : String) (ks : List String) (hne : ks ≠ []) :
    getPath m (k1 :: ks) =
      match lookupObj m k1 with
      | some (Json.obj l) => getPath l ks
      | _ => none := by
  cases ks with
  | nil => exact absurd rfl hne
  | cons a b => rfl

theorem getPath_cons_inv {m : JsonObj} {k1 : String} {ks : List String} {v : Json}
    (hne : ks ≠ []) (h : getPath m (k1 :: ks) = some v) :
    ∃ wl, lookupObj m k1 = some (Json.obj wl) ∧ getPath wl ks = some v := by
  rw [getPath_cons m k1 ks hne] at h
  rcases hlk : lookupObj m k1 with _ | w
  · rw [hlk] at h; simp at h
  · rw [hlk] at h
    cases w with
    | obj l => exact ⟨l, rfl, h⟩
    | null => simp at h
    | bool b => simp at h
    | num n => simp at h
    | str s => simp at h
    | arr l => simp at h

theorem lacksAt_obj {d : JsonObj} {k1 : String} {p : List String} {k : String}
    {dl : JsonObj} (h : lacksAt d (k1 :: p) k)
    (hlk : lookupObj d k1 = some (Json.obj dl)) : lacksAt dl p k := by
  have h2 : (match lookupObj d k1 with
      | some (Json.obj dl2) => lacksAt dl2 p k
      | _ => True) := h
  rw [hlk] at h2
  exact h2

theorem lacksAt_of_cons {key : String} {dv : Json} {rest : JsonObj}
    {p : List String} {k : String} (hmem : key ∉ keysOf rest)
    (h : lacksAt (JsonObj.cons key dv rest) p k) : lacksAt rest p k := by
  cases p with
  | nil =>
      have h2 : lookupObj (JsonObj.cons key dv rest) k = none := h
      by_cases hk : key = k
      · exact absurd h2 (by simp [lookupObj, hk])
      · show lookupObj rest k = none
        simp only [lookupObj, if_neg hk] at h2
        exact h2
  | cons k1 p2 =>
      by_cases hk : key = k1
      · have hnone : lookupObj rest k1 = none :=
          (lookupObj_eq_none_iff rest k1).mpr (hk ▸ hmem)
        have h3 : (match lookupObj rest k1 with
            | some (Json.obj dl) => lacksAt dl p2 k
            | _ => True) := by rw [hnone]; trivial
        exact h3
      · have hsame : lookupObj (JsonObj.cons key dv rest) k1 = lookupObj rest k1 := by
          simp [lookupObj, hk]
        have h2 : (match lookupObj (JsonObj.cons key dv rest) k1 with
            | some (Json.obj dl) => lacksAt dl p2 k
            | _ => True) := h
        rw [hsame] at h2
        exact h2

/-- Keys outside the default document (at any nesting level below which the
default still reconciles mapping against mapping) keep exactly the value
the changed document gave them. -/
theorem mergeInto_path_preserved : ∀ (ents s m : JsonObj),
    JsonObj.wfKeys ents = true → mergeInto ents s = some m →
    ∀ (p : List String) (k : String) (v : Json),
      getPath s (p ++ [k]) = some v → lacksAt ents p k →
      getPath m (p ++ [k]) = some v
  | JsonObj.nil, s, m, _, h, p, k, v, hc, _ => by
      rw [mergeInto_nil] at h; injection h with h; subst h; exact hc
  | JsonObj.cons key dv rest, s, m, hwf, h, p, k, v, hc, hl => by
      rw [JsonObj.wfKeys] at hwf
      simp only [Bool.and_eq_true, Bool.not_eq_true'] at hwf
      obtain ⟨⟨hknotin, hdvwf⟩, hrestwf⟩ := hwf
      have hkmem : key ∉ keysOf rest := by simpa using hknotin
      rcases mergeInto_cons_inv h with ⟨s1, hstep, hrest⟩
      have htail : lacksAt rest p k := lacksAt_of_cons hkmem hl
      have hs1path : getPath s1 (p ++ [k]) = some v := by
        cases p with
        | nil =>
            have hdk : lookupObj (JsonObj.cons key dv rest) k = none := hl
            have hkne : k ≠ key := by
              intro he; subst he; simp [lookupObj] at hdk
            show lookupObj s1 k = some v
            rw [ckbm_frame hstep k hkne]
            exact hc
        | cons k1 p2 =>
            have hne2 : p2 ++ [k] ≠ [] := by simp
            have hc2 : getPath s (k1 :: (p2 ++ [k])) = some v := hc
            rcases getPath_cons_inv hne2 hc2 with ⟨wl, hwlk, hwl⟩
            by_cases hk1 : k1 = key
            · subst hk1
              rcases ckbm_cases hstep with ⟨heq, hs1⟩ | ⟨hne, hnull, hs1⟩ |
                ⟨dm, cm, fm, fm2, hdv, hcv, hnedc, hlk, hmi, hs1⟩ |
                ⟨hne, hnn, hshape, hs1⟩
              · subst hs1; exact hc
              · rw [hwlk] at hnull
                simp [toGo] at hnull
              · rw [hwlk] at hlk
                have hwlfm : wl = fm := by
                  injection hlk with h2
                  injection h2
                subst hwlfm
                subst hdv
                have hld : lookupObj (JsonObj.cons k1 (Json.obj dm) rest) k1 =
                    some (Json.obj dm) := by simp [lookupObj]
                have hlacks : lacksAt dm p2 k := lacksAt_obj hl hld
                have hwfdm : JsonObj.wfKeys dm = true := by
                  simp only [Json.wf] at hdvwf; exact hdvwf
                have hnest : getPath fm2 (p2 ++ [k]) = some v :=
                  mergeInto_path_preserved dm wl fm2 hwfdm hmi p2 k v hwl hlacks
                subst hs1
                show getPath (insertObj s k1 (Json.obj fm2)) (k1 :: (p2 ++ [k])) = some v
                rw [getPath_cons _ k1 _ hne2, lookupObj_insertObj_self]
                exact hnest
              · subst hs1; exact hc
            · have hlkeep : lookupObj s1 k1 = lookupObj s k1 := ckbm_frame hstep k1 hk1
              show getPath s1 (k1 :: (p2 ++ [k])) = some v
              rw [getPath_cons _ k1 _ hne2, hlkeep, hwlk]
              exact hwl
      exact mergeInto_path_preserved rest s1 m hrestwf hrest p k v hs1path htail
termination_by ents s m => sizeOf ents

/-- After one merge pass, replaying every default binding against the result
is a no-op: establishes idempotence of the reconciliation. -/
theorem mergeInto_stepsNoop : ∀ (ents s m : JsonObj), JsonObj.wfKeys ents = true →
    mergeInto ents s = some m → stepsNoop ents m
  | JsonObj.nil, _, _, _, _ => trivial
  | JsonObj.cons key dv rest, s, m, hwf, h => by
      rw [JsonObj.wfKeys] at hwf
      simp only [Bool.and_eq_true, Bool.not_eq_true'] at hwf
      obtain ⟨⟨hknotin, hdvwf⟩, hrestwf⟩ := hwf
      have hkmem : key ∉ keysOf rest := by simpa using hknotin
      rcases mergeInto_cons_inv h with ⟨s1, hstep, hrest⟩
      have hlkm : lookupObj m key = lookupObj s1 key :=
        mergeInto_frame rest s1 m hrest key hkmem
      refine ⟨?_, mergeInto_stepsNoop rest s1 m hrestwf hrest⟩
      rcases ckbm_cases hstep with ⟨heq, hs1⟩ | ⟨hne, hnull, hs1⟩ |
        ⟨dm, cm, fm, fm2, hdv, hcv, hnedc, hlk, hmi, hs1⟩ |
        ⟨hne, hnn, hshape, hs1⟩
      · subst hs1
        rw [hlkm, ← heq]
        exact ckbm_self key dv m
      · subst hs1
        have hval : lookupObj m key = some dv := by
          rw [hlkm, lookupObj_insertObj_self]
        rw [hval]
        exact ckbm_self key dv m
      · subst hdv
        subst hs1
        have hval : lookupObj m key = some (Json.obj fm2) := by
          rw [hlkm, lookupObj_insertObj_self]
        have hwfdm : JsonObj.wfKeys dm = true := by
          simp only [Json.wf] at hdvwf; exact hdvwf
        have hnested : mergeInto dm fm2 = some fm2 :=
          mergeInto_of_stepsNoop dm fm2 (mergeInto_stepsNoop dm fm fm2 hwfdm hmi)
        rw [hval]
        by_cases hdeq : Json.obj dm = Json.obj fm2
        · rw [hdeq]
          exact ckbm_self key (Json.obj fm2) m
        · have hres := ckbm_obj_obj key dm fm2 fm2 fm2 m hdeq hval hnested
          rw [insertObj_lookup_self m key (Json.obj fm2) hval] at hres
          exact hres
      · subst hs1
        rw [hlkm]
        cases dv with
        | obj dm => exact ckbm_noop_mismatch key dm _ m hnn (hshape dm rfl)
        | null => exact ckbm_noop_default key _ _ m (by simp) hnn
        | bool b => exact ckbm_noop_default key _ _ m (by simp) hnn
        | num n => exact ckbm_noop_default key _ _ m (by simp) hnn
        | str s2 => exact ckbm_noop_default key _ _ m (by simp) hnn
        | arr l => exact ckbm_noop_default key _ _ m (by simp) hnn
termination_by ents s m => sizeOf ents

/-- Every non-null default binding ends up present in the merge result. -/
theorem mergeInto_coverage : ∀ (d c m : JsonObj), mergeInto d c = some m →
    ∀ k v, lookupObj d k = some v → v ≠ Json.null → (lookupObj m k).isSome
  | JsonObj.nil, _, _, _, k, v, hd, _ => by simp [lookupObj] at hd
  | JsonObj.cons key dv rest, c, m, h, k, v, hd, hv => by
      rcases mergeInto_cons_inv h with ⟨s1, hstep, hrest⟩
      by_cases hk : key = k
      · subst hk
        have hdv : dv = v := by
          rw [lookupObj, if_pos rfl] at hd
          injection hd
        subst hdv
        have hsome : (lookupObj s1 key).isSome := by
          rcases ckbm_cases hstep with ⟨heq, he⟩ | ⟨hne, hnull, he⟩ |
            ⟨dm, cm, fm, fm2, hdveq, hcv, hnedc, hlk, hmi, he⟩ |
            ⟨hne, hnn, hshape, he⟩
          · rw [he]
            rcases hlc : lookupObj c key with _ | w
            · rw [hlc] at heq; exact absurd heq hv
            · rfl
          · rw [he, lookupObj_insertObj_self]; rfl
          · rw [he, lookupObj_insertObj_self]; rfl
          · rw [he]
            rcases hlc : lookupObj c key with _ | w
            · rw [hlc] at hnn; exact absurd rfl hnn
            · rfl
        exact mergeInto_mono rest s1 m hrest key hsome
      · have hd2 : lookupObj rest k = some v := by
          rw [lookupObj, if_neg hk] at hd; exact hd
        exact mergeInto_coverage rest s1 m hrest k v hd2 hv

/-- A changed binding holding a non-null, non-mapping value is never
overwritten, whatever the default holds at that key. -/
theorem mergeInto_keep_nonmap : ∀ (d c m : JsonObj), mergeInto d c = some m →
    ∀ k v, lookupObj c k = some v → v ≠ Json.null → (∀ l, v ≠ Json.obj l) →
    lookupObj m k = some v
  | JsonObj.nil, c, m, h, k, v, hc, _, _ => by
      rw [mergeInto_nil] at h; injection h with h; subst h; exact hc
  | JsonObj.cons key dv rest, c, m, h, k, v, hc, hv, hvo => by
      rcases mergeInto_cons_inv h with ⟨s1, hstep, hrest⟩
      have hs1 : lookupObj s1 k = some v := by
        by_cases hk : k = key
        · subst hk
          rcases ckbm_cases hstep with ⟨heq, he⟩ | ⟨hne, hnull, he⟩ |
            ⟨dm, cm, fm, fm2, hdveq, hcv, hnedc, hlk, hmi, he⟩ |
            ⟨hne, hnn, hshape, he⟩
          · subst he; exact hc
          · rw [hc] at hnull
            exact absurd hnull hv
          · rw [hc] at hcv
            exact absurd hcv (hvo cm)
          · subst he; exact hc
        · rw [ckbm_frame hstep k hk]; exact hc
      exact mergeInto_keep_nonmap rest s1 m hrest k v hs1 hv hvo

/-- A default binding with a non-null value fills the gap when the changed
document has nothing (or an explicit null) at that key. -/
theorem mergeInto_gap_fill : ∀ (d c m : JsonObj), (keysOf d).Nodup →
    mergeInto d c = some m →
    ∀ k v, lookupObj d k = some v → v ≠ Json.null →
      toGo (lookupObj c k) = Json.null → lookupObj m k = some v
  | JsonObj.nil, _, _, _, _, k, v, hd, _, _ => by simp [lookupObj] at hd
  | JsonObj.cons key dv rest, c, m, hnd, h, k, v, hd, hv, hnull => by
      simp only [keysOf, List.nodup_cons] at hnd
      rcases mergeInto_cons_inv h with ⟨s1, hstep, hrest⟩
      by_cases hk : key = k
      · subst hk
        have hdv : dv = v := by
          rw [lookupObj, if_pos rfl] at hd
          injection hd
        subst hdv
        rw [hnull, ckbm_fill key dv c hv] at hstep
        injection hstep with hstep
        subst hstep
        rw [mergeInto_frame rest _ m hrest key hnd.1, lookupObj_insertObj_self]
      · have hd2 : lookupObj rest k = some v := by
          rw [lookupObj, if_neg hk] at hd; exact hd
        have hnull2 : toGo (lookupObj s1 k) = Json.null := by
          rw [ckbm_frame hstep k (fun he => hk he.symm)]
          exact hnull
        exact mergeInto_gap_fill rest s1 m hnd.2 hrest k v hd2 hv hnull2

/-! ### Claim theorems for the merge component -/

/-- C1 counterexample: the claim "every key present in the default document
is present in the merge result" fails.  With default `{"k": null}` and
changed `{"x": 1}` both decoding successfully, the deep-equality
short-circuit fires (`defaultCRDecoded["k"]` and the absent
`changedCRDecoded["k"]` are both Go's nil interface), so key `"k"` is never
written and is absent from the result. -/
theorem c1_null_default_key_dropped :
    MergeCR (fun b => if b = [1] then JsonObj.cons "k" Json.null JsonObj.nil
        else JsonObj.cons "x" (Json.num 1) JsonObj.nil) [1] [2]
      = some (JsonObj.cons "x" (Json.num 1) JsonObj.nil)
    ∧ mergeInto (JsonObj.cons "k" Json.null JsonObj.nil)
        (JsonObj.cons "x" (Json.num 1) JsonObj.nil)
      = some (JsonObj.cons "x" (Json.num 1) JsonObj.nil)
    ∧ lookupObj (JsonObj.cons "x" (Json.num 1) JsonObj.nil) "k" = none :=
  ⟨rfl, rfl, rfl⟩

/-- C1 (amended): every key of the default document whose default value is
not null is present in the result of `MergeCR`'s reconciliation loop; since
the same loop runs at every nesting level, the same holds for every default
sub-mapping reconciled against a changed sub-mapping. -/
theorem c1_key_coverage_nonnull : ∀ (d c m : JsonObj), mergeInto d c = some m →
    ∀ k v, lookupObj d k = some v → v ≠ Json.null → (lookupObj m k).isSome :=
  mergeInto_coverage

theorem c1_key_coverage_nonnull_witness :
    (lookupObj (JsonObj.cons "x" (Json.num 1)
      (JsonObj.cons "k" (Json.num 5) JsonObj.nil)) "k").isSome :=
  c1_key_coverage_nonnull (JsonObj.cons "k" (Json.num 5) JsonObj.nil)
    (JsonObj.cons "x" (Json.num 1) JsonObj.nil)
    (JsonObj.cons "x" (Json.num 1) (JsonObj.cons "k" (Json.num 5) JsonObj.nil))
    rfl "k" (Json.num 5) rfl (by decide)

/-- C5: (a) a changed value that is present, not null and not a mapping wins
at its key, whatever the default holds there (a default mapping's subtree is
silently discarded); (b) if the changed document holds nothing (or an
explicit null) at a default key whose default value is not null, the whole
default value fills the gap. -/
theorem c5_nonoverwrite_gapfill : ∀ (d c m : JsonObj) (k : String) (v : Json),
    (keysOf d).Nodup → mergeInto d c = some m →
    ((lookupObj c k = some v → v ≠ Json.null → (∀ l, v ≠ Json.obj l) →
        lookupObj m k = some v)
     ∧ (lookupObj d k = some v → v ≠ Json.null → toGo (lookupObj c k) = Json.null →
        lookupObj m k = some v)) :=
  fun d c m k v hnd h =>
    ⟨fun h1 h2 h3 => mergeInto_keep_nonmap d c m h k v h1 h2 h3,
     fun h1 h2 h3 => mergeInto_gap_fill d c m hnd h k v h1 h2 h3⟩

theorem c5_nonoverwrite_gapfill_witness :
    lookupObj (JsonObj.cons "a" (Json.str "s") (JsonObj.cons "b" (Json.num 2)
      JsonObj.nil)) "a" = some (Json.str "s")
    ∧ lookupObj (JsonObj.cons "a" (Json.str "s") (JsonObj.cons "b" (Json.num 2)
      JsonObj.nil)) "b" = some (Json.num 2) :=
  ⟨(c5_nonoverwrite_gapfill
      (JsonObj.cons "a" (Json.obj (JsonObj.cons "q" (Json.num 1) JsonObj.nil))
        (JsonObj.cons "b" (Json.num 2) JsonObj.nil))
      (JsonObj.cons "a" (Json.str "s") JsonObj.nil)
      (JsonObj.cons "a" (Json.str "s") (JsonObj.cons "b" (Json.num 2) JsonObj.nil))
      "a" (Json.str "s") (by decide) rfl).1 rfl (by decide) (by intro l h; cases h),
   (c5_nonoverwrite_gapfill
      (JsonObj.cons "a" (Json.obj (JsonObj.cons "q" (Json.num 1) JsonObj.nil))
        (JsonObj.cons "b" (Json.num 2) JsonObj.nil))
      (JsonObj.cons "a" (Json.str "s") JsonObj.nil)
      (JsonObj.cons "a" (Json.str "s") (JsonObj.cons "b" (Json.num 2) JsonObj.nil))
      "b" (Json.num 2) (by decide) rfl).2 rfl (by decide) rfl⟩

/-- C6: the merge is idempotent — re-merging the default document into an
already-merged result changes nothing (for decoded documents, whose mappings
bind each key once). -/
theorem c6_merge_idempotent : ∀ (d c m : JsonObj), JsonObj.wfKeys d = true →
    mergeInto d c = some m → mergeInto d m = some m :=
  fun d c m hwf h => mergeInto_of_stepsNoop d m (mergeInto_stepsNoop d c m hwf h)

theorem c6_merge_idempotent_witness :
    mergeInto
      (JsonObj.cons "a" (Json.obj (JsonObj.cons "x" (Json.num 1)
        (JsonObj.cons "y" (Json.num 2) JsonObj.nil)))
        (JsonObj.cons "b" (Json.num 5) JsonObj.nil))
      (JsonObj.cons "a" (Json.obj (JsonObj.cons "x" (Json.num 9)
        (JsonObj.cons "y" (Json.num 2) JsonObj.nil)))
        (JsonObj.cons "b" (Json.num 5) JsonObj.nil))
    = some (JsonObj.cons "a" (Json.obj (JsonObj.cons "x" (Json.num 9)
        (JsonObj.cons "y" (Json.num 2) JsonObj.nil)))
        (JsonObj.cons "b" (Json.num 5) JsonObj.nil)) :=
  c6_merge_idempotent
    (JsonObj.cons "a" (Json.obj (JsonObj.cons "x" (Json.num 1)
      (JsonObj.cons "y" (Json.num 2) JsonObj.nil)))
      (JsonObj.cons "b" (Json.num 5) JsonObj.nil))
    (JsonObj.cons "a" (Json.obj (JsonObj.cons "x" (Json.num 9) JsonObj.nil))
      JsonObj.nil)
    (JsonObj.cons "a" (Json.obj (JsonObj.cons "x" (Json.num 9)
      (JsonObj.cons "y" (Json.num 2) JsonObj.nil)))
      (JsonObj.cons "b" (Json.num 5) JsonObj.nil))
    rfl rfl

/-- C7: a key present only in the changed document keeps exactly the value
the changed document gave it — at top level (first conjunct, an equality of
lookups for any key outside the default) and inside nested changed
sub-mappings (second conjunct, along any key path whose endpoint the default
lacks). -/
theorem c7_changed_only_preserved : ∀ (d c m : JsonObj),
    JsonObj.wfKeys d = true → mergeInto d c = some m →
    ((∀ k, k ∉ keysOf d → lookupObj m k = lookupObj c k)
     ∧ ∀ (p : List String) (k : String) (v : Json),
        getPath c (p ++ [k]) = some v → lacksAt d p k →
        getPath m (p ++ [k]) = some v) :=
  fun d c m hwf h =>
    ⟨fun k hk => mergeInto_frame d c m h k hk,
     fun p k v hc hl => mergeInto_path_preserved d c m hwf h p k v hc hl⟩

theorem c7_changed_only_preserved_witness :
    lookupObj (JsonObj.cons "a" (Json.obj (JsonObj.cons "x" (Json.num 9)
        (JsonObj.cons "z" (Json.num 7) (JsonObj.cons "y" (Json.num 2) JsonObj.nil))))
        (JsonObj.cons "w" (Json.num 3) JsonObj.nil)) "w" = some (Json.num 3)
    ∧ getPath (JsonObj.cons "a" (Json.obj (JsonObj.cons "x" (Json.num 9)
        (JsonObj.cons "z" (Json.num 7) (JsonObj.cons "y" (Json.num 2) JsonObj.nil))))
        (JsonObj.cons "w" (Json.num 3) JsonObj.nil)) ["a", "z"] = some (Json.num 7) :=
  ⟨((c7_changed_only_preserved
      (JsonObj.cons "a" (Json.obj (JsonObj.cons "x" (Json.num 1)
        (JsonObj.cons "y" (Json.num 2) JsonObj.nil))) JsonObj.nil)
      (JsonObj.cons "a" (Json.obj (JsonObj.cons "x" (Json.num 9)
        (JsonObj.cons "z" (Json.num 7) JsonObj.nil)))
        (JsonObj.cons "w" (Json.num 3) JsonObj.nil))
      (JsonObj.cons "a" (Json.obj (JsonObj.cons "x" (Json.num 9)
        (JsonObj.cons "z" (Json.num 7) (JsonObj.cons "y" (Json.num 2) JsonObj.nil))))
        (JsonObj.cons "w" (Json.num 3) JsonObj.nil))
      rfl rfl).1 "w" (by decide)).trans rfl,
   (c7_changed_only_preserved
      (JsonObj.cons "a" (Json.obj (JsonObj.cons "x" (Json.num 1)
        (JsonObj.cons "y" (Json.num 2) JsonObj.nil))) JsonObj.nil)
      (JsonObj.cons "a" (Json.obj (JsonObj.cons "x" (Json.num 9)
        (JsonObj.cons "z" (Json.num 7) JsonObj.nil)))
        (JsonObj.cons "w" (Json.num 3) JsonObj.nil))
      (JsonObj.cons "a" (Json.obj (JsonObj.cons "x" (Json.num 9)
        (JsonObj.cons "z" (Json.num 7) (JsonObj.cons "y" (Json.num 2) JsonObj.nil))))
        (JsonObj.cons "w" (Json.num 3) JsonObj.nil))
      rfl rfl).2 ["a"] "z" (Json.num 7) rfl rfl⟩

/-- C8: the type assertion `finalMap[key].(map[string]interface{})` taken in
the recursive mapping branch never fails: the reconciliation loop (and hence
`MergeCR`) always returns a result, for all inputs, because the changed
value fed to `checkKeyBeforeMerging` is read from `finalMap` at `key`, so
when it is a mapping, so is `finalMap[key]`. -/
theorem c8_assertion_never_panics :
    (∀ (d c : JsonObj), (mergeInto d c).isSome)
    ∧ ∀ (dec : List Nat → JsonObj) (defaultCR changedCR : List Nat),
        (MergeCR dec defaultCR changedCR).isSome := by
  refine ⟨fun d c => mergeInto_isSome d c, ?_⟩
  intro dec d c
  rw [MergeCR]
  split_ifs with h1 h2 h3
  · rfl
  · rfl
  · rfl
  · exact mergeInto_isSome _ _

/-- C9: with both inputs empty `MergeCR` returns the empty mapping; with
exactly one empty input it returns the other input decoded as-is, with no
reconciliation applied. -/
theorem c9_empty_inputs : ∀ (dec : List Nat → JsonObj) (defaultCR changedCR : List Nat),
    (defaultCR = [] → changedCR = [] → MergeCR dec defaultCR changedCR = some JsonObj.nil)
    ∧ (defaultCR ≠ [] → changedCR = [] → MergeCR dec defaultCR changedCR = some (dec defaultCR))
    ∧ (defaultCR = [] → changedCR ≠ [] → MergeCR dec defaultCR changedCR = some (dec changedCR)) := by
  intro dec d c
  refine ⟨?_, ?_, ?_⟩
  · intro h1 h2; subst h1; subst h2; rfl
  · intro h1 h2; subst h2
    simp [MergeCR, List.length_eq_zero, h1]
  · intro h1 h2; subst h1
    simp [MergeCR, List.length_eq_zero, h2]

theorem c9_empty_inputs_witness :
    MergeCR (fun _ => JsonObj.cons "a" (Json.num 1) JsonObj.nil) [] [] = some JsonObj.nil
    ∧ MergeCR (fun _ => JsonObj.cons "a" (Json.num 1) JsonObj.nil) [1] [] =
        some (JsonObj.cons "a" (Json.num 1) JsonObj.nil)
    ∧ MergeCR (fun _ => JsonObj.cons "a" (Json.num 1) JsonObj.nil) [] [1] =
        some (JsonObj.cons "a" (Json.num 1) JsonObj.nil) :=
  ⟨(c9_empty_inputs _ [] []).1 rfl rfl,
   (c9_empty_inputs _ [1] []).2.1 (by simp) rfl,
   (c9_empty_inputs _ [] [1]).2.2 rfl (by simp)⟩

/-- C10: merging a document with itself is the identity — for a non-empty
input supplied as both arguments, `MergeCR` returns exactly its decoding:
the deep-equality short-circuit fires at every key. -/
theorem c10_self_merge_identity : ∀ (dec : List Nat → JsonObj) (b : List Nat),
    b ≠ [] → (keysOf (dec b)).Nodup → MergeCR dec b b = some (dec b) := by
  intro dec b hb hnd
  rw [MergeCR]
  rw [if_neg (by simp [List.length_eq_zero, hb]),
      if_neg (by simp [List.length_eq_zero, hb]),
      if_neg (by simp [List.length_eq_zero, hb])]
  exact mergeInto_self (dec b) hnd

theorem c10_self_merge_identity_witness :
    MergeCR (fun _ => JsonObj.cons "a" (Json.obj (JsonObj.cons "x" (Json.num 1)
        JsonObj.nil)) (JsonObj.cons "b" Json.null JsonObj.nil)) [7] [7]
      = some (JsonObj.cons "a" (Json.obj (JsonObj.cons "x" (Json.num 1)
        JsonObj.nil)) (JsonObj.cons "b" Json.null JsonObj.nil)) :=
  c10_self_merge_identity _ [7] (by simp) (by decide)

/-! ### Lemmas about the comparison loop -/

/-- Components of `v2Slice` beyond `v1Slice`'s length are never read. -/
theorem cmpLoop_take : ∀ (l1 l2 : List (List Char)),
    cmpLoop l1 l2 = cmpLoop l1 (l2.take l1.length)
  | [], _ => rfl
  | _ :: _, [] => rfl
  | c1 :: r1, c2 :: r2 => by
      cases h1 : strconvAtoi c1 with
      | none => simp [cmpLoop, h1]
      | some n1 =>
          cases h2 : strconvAtoi c2 with
          | none => simp [cmpLoop, h1, h2, List.take_succ_cons]
          | some n2 =>
              by_cases hgt : n1 > n2
              · simp [cmpLoop, h1, h2, hgt, List.take_succ_cons]
              · by_cases heq2 : n1 = n2
                · simp [cmpLoop, h1, h2, hgt, heq2, List.take_succ_cons,
                    cmpLoop_take r1 r2]
                · simp [cmpLoop, h1, h2, hgt, heq2, List.take_succ_cons]

/-- When `v2Slice` is at least as long as `v1Slice`, the loop never indexes
out of range: the call always returns a defined result. -/
theorem cmpLoop_total : ∀ (l1 l2 : List (List Char)), l1.length ≤ l2.length →
    (cmpLoop l1 l2).isSome
  | [], _, _ => rfl
  | _ :: _, [], h => by simp at h
  | c1 :: r1, c2 :: r2, h => by
      have hlen : r1.length ≤ r2.length := by simpa using h
      cases h1 : strconvAtoi c1 with
      | none => simp [cmpLoop, h1]
      | some n1 =>
          cases h2 : strconvAtoi c2 with
          | none => simp [cmpLoop, h1, h2]
          | some n2 =>
              by_cases hgt : n1 > n2
              · simp [cmpLoop, h1, h2, hgt]
              · by_cases heq2 : n1 = n2
                · simpa [cmpLoop, h1, h2, hgt, heq2] using cmpLoop_total r1 r2 hlen
                · simp [cmpLoop, h1, h2, hgt, heq2]

/-- If the loop reaches index `i` (all earlier components parse and are
equal) and the component read there fails `strconv.Atoi`, the call returns
that parse error. -/
theorem cmpLoop_parse_error : ∀ (l1 l2 : List (List Char)) (i : Nat),
    (∀ j, j < i → ∃ n : Int, strconvAtoi (l1.getD j []) = some n ∧
        strconvAtoi (l2.getD j []) = some n) →
    i < l1.length →
    (strconvAtoi (l1.getD i []) = none ∨
      (i < l2.length ∧ strconvAtoi (l2.getD i []) = none)) →
    ∃ e, cmpLoop l1 l2 = some (Except.error e)
  | [], _, i, _, hi, _ => absurd hi (by simp)
  | c1 :: r1, l2, 0, _, _, hfail => by
      rcases hfail with h1 | ⟨h2len, h2⟩
      · simp only [List.getD_cons_zero] at h1
        exact ⟨c1, by simp [cmpLoop, h1]⟩
      · cases l2 with
        | nil => simp at h2len
        | cons c2 r2 =>
            simp only [List.getD_cons_zero] at h2
            cases h1 : strconvAtoi c1 with
            | none => exact ⟨c1, by simp [cmpLoop, h1]⟩
            | some n1 => exact ⟨c2, by simp [cmpLoop, h1, h2]⟩
  | c1 :: r1, l2, i + 1, hpre, hi, hfail => by
      rcases hpre 0 (Nat.succ_pos i) with ⟨n, hn1, hn2⟩
      simp only [List.getD_cons_zero] at hn1
      cases l2 with
      | nil => simp [strconvAtoi] at hn2
      | cons c2 r2 =>
          simp only [List.getD_cons_zero] at hn2
          obtain ⟨e, he⟩ := cmpLoop_parse_error r1 r2 i
            (fun j hj => by
              rcases hpre (j + 1) (Nat.succ_lt_succ hj) with ⟨n2, ha, hb⟩
              simp only [List.getD_cons_succ] at ha hb
              exact ⟨n2, ha, hb⟩)
            (by simpa using hi)
            (by
              rcases hfail with h1 | ⟨hl, h2⟩
              · left; simpa only [List.getD_cons_succ] using h1
              · right
                exact ⟨by simpa using hl, by simpa only [List.getD_cons_succ] using h2⟩)
          exact ⟨e, by simp [cmpLoop, hn1, hn2, lt_irrefl, he]⟩

/-! ### Claim theorems for the version comparator -/

/-- C2 (code evaluation): in the `v2` normalization block the source writes
the `"0.0"` default to `v1Cut`, not `v2Cut`.  So for `v2` without a `v` the
call does not compare `v1` against `0.0`: `v1Slice` is clobbered to
`["0","0"]`, `v2Slice` becomes `["","0"]`, and the call fails with a parse
error on the empty component — here shown at `("v1.0", "abc")`, where
independent normalization would demand `1.0 > 0.0 = true`.  (The direction
the spec's own example exercises, `("abc", "v1.0")`, does return `false`.) -/
theorem c2_v2_default_clobbers_v1 :
    CompareChannelVersion "v1.0" "abc" = some (Except.error [])
    ∧ CompareChannelVersion "abc" "v1.0" = some (Except.ok false)
    ∧ v1SliceOf "v1.0" "abc" = [['0'], ['0']]
    ∧ v2SliceOf "abc" = [[], ['0']] :=
  ⟨rfl, rfl, rfl, rfl⟩

/-- C3: the loop is driven by `v1Slice` — whenever `v2Slice` is at least as
long, the call is total and trailing extra components of `v2Slice` are
ignored; and the out-of-range read (the `none` of the embedding, Go's index
panic) is reachable, e.g. at `("v1.0.1", "v1.0")`. -/
theorem c3_loop_driven_by_v1 :
    ((∀ v1 v2 : String, (v1SliceOf v1 v2).length ≤ (v2SliceOf v2).length →
        (CompareChannelVersion v1 v2).isSome)
     ∧ (∀ v1 v2 : String, CompareChannelVersion v1 v2 =
          cmpLoop (v1SliceOf v1 v2) ((v2SliceOf v2).take (v1SliceOf v1 v2).length)))
    ∧ CompareChannelVersion "v1.0.1" "v1.0" = none :=
  ⟨⟨fun _ _ h => cmpLoop_total _ _ h, fun _ _ => cmpLoop_take _ _⟩, rfl⟩

theorem c3_loop_driven_by_v1_witness :
    (CompareChannelVersion "v1.2" "v1.10").isSome :=
  c3_loop_driven_by_v1.1.1 "v1.2" "v1.10" (by decide)

/-- C4: whenever the comparison loop reads a component that fails integer
parsing (all components before it parsed equal, so the loop reaches it), the
call returns the parse error and no ordering result. -/
theorem c4_parse_error (v1 v2 : String) (i : Nat)
    (hpre : ∀ j, j < i → ∃ n : Int,
        strconvAtoi ((v1SliceOf v1 v2).getD j []) = some n ∧
        strconvAtoi ((v2SliceOf v2).getD j []) = some n)
    (hi : i < (v1SliceOf v1 v2).length)
    (hfail : strconvAtoi ((v1SliceOf v1 v2).getD i []) = none ∨
      (i < (v2SliceOf v2).length ∧ strconvAtoi ((v2SliceOf v2).getD i []) = none)) :
    ∃ e, CompareChannelVersion v1 v2 = some (Except.error e) :=
  cmpLoop_parse_error _ _ i hpre hi hfail

theorem c4_parse_error_witness :
    ∃ e, CompareChannelVersion "v1.x" "v1.0" = some (Except.error e) :=
  c4_parse_error "v1.x" "v1.0" 1
    (fun j hj => by
      have hj0 : j = 0 := Nat.lt_one_iff.mp hj
      subst hj0
      exact ⟨1, by decide, by decide⟩)
    (by decide)
    (Or.inl (by decide))
